import Mathlib

/-!
Verification of the Confluence question-answering assistant.

The Python sources are embedded shallowly.  The Confluence REST client is a
record of abstract functions (each network effect is replaced by the value it
returns), the tiktoken encoding is an abstract token-counting function
`tk : String → Nat`, and the OpenAI chat call is a function returning an
`Except` value, where an `error` models an exception raised by the call and
caught by the surrounding handler.  Machine integers are `Nat`; Python floor
division `//` is `Nat` division.
-/

namespace ConfluenceQA

/-- Raw search result returned by the Confluence REST API
(`confluence_client.py`).  A missing or empty page id is collapsed to `""`
(`result.get ["id"]` yielding `None` and the empty string are both falsy in
Python); `hasStorage` states whether the record carries a `body` with a
`storage` key; `storageValue` is `body.storage.value` (`""` when absent);
`versionWhen` is `version.when` (`""` when absent). -/
structure RawResult where
  id : String
  title : String
  webui : String
  spaceName : String
  hasStorage : Bool
  storageValue : String
  versionWhen : String
  rtype : String
deriving DecidableEq

/-- Enriched document built by `search_relevant_content`
(`ai_assistant.py`, lines 100-108). -/
structure Enriched where
  id : String
  title : String
  url : String
  space : String
  content : String
  lastModified : String
  rtype : String
deriving DecidableEq

/-- Source record of an answer (`ai_assistant.py`, lines 217-224). -/
structure Source where
  title : String
  url : String
  space : String
deriving DecidableEq

/-- Result dictionary of `answer_question`: keys `answer`, `sources`,
`confidence`. -/
structure AnswerResult where
  answer : String
  sources : List Source
  confidence : String
deriving DecidableEq

/-- The Confluence client as seen from `ai_assistant.py`: four operations,
each modelled as a pure function (the real ones already convert their own
HTTP failures to empty or `None` results). -/
structure Client where
  searchContent : String → Nat → List RawResult
  getRecentPages : Nat → List RawResult
  getPageContent : String → Option RawResult
  extractText : String → String

/-- One observable client call made by `search_relevant_content`. -/
inductive Call where
  | search : String → Nat → Call
  | recent : Nat → Call
  | getPage : String → Call
deriving DecidableEq

/-- Python `question.lower()` restricted to ASCII case folding
(character-wise `Char.toLower`). -/
def lowerString (s : String) : String :=
  String.mk (s.toList.map Char.toLower)

/-- A `\w` character of the regex `\b\w{4,}\b` (ASCII fragment):
alphanumeric or underscore. -/
def isWordChar (c : Char) : Bool :=
  c.isAlphanum || c = '_'

/-- Maximal runs of word characters; `acc` holds the current run reversed.
`re.findall` of `\b\w{4,}\b` returns exactly the maximal `\w`-runs of length
at least 4, in order, with multiplicity. -/
def wordRunsAux : List Char → List Char → List (List Char)
  | acc, [] => if acc.isEmpty then [] else [acc.reverse]
  | acc, c :: cs =>
    if isWordChar c then wordRunsAux (c :: acc) cs
    else if acc.isEmpty then wordRunsAux [] cs
    else acc.reverse :: wordRunsAux [] cs

/-- `re.findall (backslash-b w 4-or-more backslash-b, question.lower())`
(`ai_assistant.py`, line 62). -/
def extractKeywords (q : String) : List String :=
  ((wordRunsAux [] (lowerString q).toList).filter (fun r => 4 ≤ r.length)).map String.mk

/-- The search calls issued by strategy 2 (`ai_assistant.py`, lines 63-67):
one call per element of `keywords[:3]`, with limit `max_results // 2`. -/
def strategyBCalls (q : String) (mr : Nat) : List Call :=
  ((extractKeywords q).take 3).map (fun k => Call.search k (mr / 2))

/-- First-occurrence deduplication of a keyword list (helper for the claimed
variant below; not present in the source). -/
def distinctAux : List String → List String → List String
  | _, [] => []
  | seen, k :: ks =>
    if k ∈ seen then distinctAux seen ks
    else k :: distinctAux (k :: seen) ks

/-- Modelled from the spec words, for comparison with `strategyBCalls`: one
search call for each of the first 3 DISTINCT keywords in order of
appearance.  This is the claimed behaviour, not the code's. -/
def strategyBCallsClaimed (q : String) (mr : Nat) : List Call :=
  ((distinctAux [] (extractKeywords q)).take 3).map (fun k => Call.search k (mr / 2))

/-- Strategy 2 results (`ai_assistant.py`, lines 63-67). -/
def strategyB (c : Client) (q : String) (mr : Nat) : List RawResult :=
  ((extractKeywords q).take 3).flatMap (fun k => c.searchContent k (mr / 2))

/-- `all_results` after strategies 1 and 2 (`ai_assistant.py`, lines 53-67). -/
def combinedAB (c : Client) (q : String) (mr : Nat) : List RawResult :=
  c.searchContent q mr ++ strategyB c q mr

/-- `all_results` after the recent-pages fallback (`ai_assistant.py`,
lines 69-73). -/
def allResults (c : Client) (q : String) (mr : Nat) : List RawResult :=
  if (combinedAB c q mr).isEmpty then c.getRecentPages mr else combinedAB c q mr

/-- The deduplication loop (`ai_assistant.py`, lines 75-82): keep a result
when its id is truthy and not yet seen. -/
def dedupAux : List String → List RawResult → List RawResult
  | _, [] => []
  | seen, r :: rs =>
    if r.id ≠ "" ∧ r.id ∉ seen then r :: dedupAux (r.id :: seen) rs
    else dedupAux seen rs

/-- The same loop on the id strings alone. -/
def firstIdsAux : List String → List String → List String
  | _, [] => []
  | seen, i :: is =>
    if i ≠ "" ∧ i ∉ seen then i :: firstIdsAux (i :: seen) is
    else firstIdsAux seen is

/-- The full-body fetch of the enrichment loop (`ai_assistant.py`,
lines 87-93): when the result lacks `body.storage` and has a truthy id,
replace it by `get_page_content(id)` if that is truthy. -/
def resolveBody (c : Client) (r : RawResult) : RawResult :=
  if r.hasStorage then r
  else if r.id = "" then r
  else
    match c.getPageContent r.id with
    | some fc => fc
    | none => r

/-- `result.get ["body"].get ["storage"].get ["value"]` with default `""`. -/
def bodyValue (r : RawResult) : String :=
  if r.hasStorage then r.storageValue else ""

/-- One pass of the enrichment loop body (`ai_assistant.py`, lines 86-109):
returns the enriched record, or `none` when the extracted text is empty. -/
def enrichOne (c : Client) (r0 : RawResult) : Option Enriched :=
  let r := resolveBody c r0
  let text := c.extractText (bodyValue r)
  if text = "" then none
  else some ⟨r.id, r.title, r.webui, r.spaceName, text, r.versionWhen, r.rtype⟩

/-- The `get_page_content` calls issued by the enrichment loop, one per
capped result lacking a storage body and having a truthy id. -/
def fetchLog (l : List RawResult) : List Call :=
  l.flatMap (fun r => if r.hasStorage = false ∧ r.id ≠ "" then [Call.getPage r.id] else [])

/-- `search_relevant_content` (`ai_assistant.py`, lines 41-111), returning
the enriched results together with the trace of client calls issued. -/
def search_relevant_content (c : Client) (question : String) (maxResults : Nat) :
    List Enriched × List Call :=
  let ab := combinedAB c question maxResults
  let all := allResults c question maxResults
  let uniq := dedupAux [] all
  let capped := uniq.take maxResults
  (capped.filterMap (enrichOne c),
    Call.search question maxResults ::
      (strategyBCalls question maxResults ++
        ((if ab.isEmpty then [Call.recent maxResults] else []) ++ fetchLog capped)))

/-- Recognise a recent-pages call in a trace. -/
def isRecentCall : Call → Bool
  | Call.recent _ => true
  | _ => false

/-- The per-document template of `create_context_from_content`
(`ai_assistant.py`, lines 129-139). -/
def renderDoc (d : Enriched) : String :=
  "\nTitle: " ++ d.title ++ "\nSpace: " ++ d.space ++ "\nURL: " ++ d.url ++
    "\nLast Modified: " ++ d.lastModified ++ "\n\nContent:\n" ++ d.content ++ "\n\n---\n"

/-- The accumulation loop of `create_context_from_content`
(`ai_assistant.py`, lines 127-148): append a rendered block only while the
running token total stays within the budget, stopping at the first
overflowing document. -/
def contextPartsGo (tk : String → Nat) (maxTokens : Nat) : Nat → List Enriched → List String
  | _, [] => []
  | cur, d :: ds =>
    let t := tk (renderDoc d)
    if maxTokens < cur + t then []
    else renderDoc d :: contextPartsGo tk maxTokens (cur + t) ds

/-- `context_parts` at the end of the loop. -/
def contextParts (tk : String → Nat) (l : List Enriched) (maxTokens : Nat) : List String :=
  contextPartsGo tk maxTokens 0 l

/-- `create_context_from_content` (`ai_assistant.py`, lines 113-150):
the accumulated blocks joined with a newline. -/
def create_context_from_content (tk : String → Nat) (l : List Enriched) (maxTokens : Nat) :
    String :=
  String.intercalate "\n" (contextParts tk l maxTokens)

/-- The fixed system message of `answer_question` (`ai_assistant.py`,
lines 188-192). -/
def systemPrompt : String :=
  "You are a helpful assistant that answers questions based on Confluence documentation. \n            Use the provided context to answer the user\x27s question accurately and comprehensively. \n            If the context doesn\x27t contain enough information to answer the question, say so clearly.\n            Always cite the sources when possible by mentioning the page titles.\n            Be concise but thorough in your responses."

/-- The user message of `answer_question` (`ai_assistant.py`, lines 194-200). -/
def userPrompt (context q : String) : String :=
  "Context from Confluence documentation:\n\n" ++ context ++ "\n\nQuestion: " ++ q ++
    "\n\nPlease provide a comprehensive answer based on the context above. If you reference specific information, mention which page it came from."

/-- Answer text of the recent-pages fallback branch (`ai_assistant.py`,
line 173). -/
def noSpecificAnswer (q : String) : String :=
  "I couldn\x27t find specific information about \x27" ++ q ++
    "\x27 in your Confluence documentation. However, I found some recent pages that might be relevant. You may want to check your Confluence space for more specific information or try rephrasing your question with different keywords."

/-- Answer text of the nothing-found branch (`ai_assistant.py`, line 179). -/
def noInfoAnswer (q : String) : String :=
  "I couldn\x27t find any relevant information about \x27" ++ q ++
    "\x27 in your Confluence documentation. This could be because:\n\n1. The information might not be documented yet\n2. It might be in a different space or page\n3. The search terms might need to be adjusted\n\nTry searching for different keywords or check if the information exists in your Confluence space."

/-- Answer text of the exception handler (`ai_assistant.py`, line 235). -/
def errorAnswer (e : String) : String :=
  "I encountered an error while processing your question: " ++ e

/-- `answer_question` (`ai_assistant.py`, lines 152-238).  `gen` is the
OpenAI chat call on (system message, user message); `Except.error e` models
the call raising an exception with message `e`, which the `try/except` of
the source converts into the fallback result.  `search_relevant_content` is
invoked with its default `max_results = 10`, as in the source. -/
def answer_question (c : Client) (tk : String → Nat)
    (gen : String → String → Except String String) (q : String)
    (maxContextTokens : Nat) : AnswerResult :=
  let relevant := (search_relevant_content c q 10).1
  if relevant.isEmpty then
    let recent := c.getRecentPages 5
    if recent.isEmpty then
      ⟨noInfoAnswer q, [], "low"⟩
    else
      ⟨noSpecificAnswer q,
        (recent.take 3).map (fun p => ⟨p.title, p.webui, p.spaceName⟩), "low"⟩
  else
    let context := create_context_from_content tk relevant maxContextTokens
    match gen systemPrompt (userPrompt context q) with
    | Except.ok ans =>
      ⟨ans, relevant.map (fun d => ⟨d.title, d.url, d.space⟩),
        if 0 < relevant.length then "high" else "medium"⟩
    | Except.error e => ⟨errorAnswer e, [], "low"⟩

/-- Insert into an already descending list: skip past strictly greater keys,
settle before the first element whose key is not strictly greater.  Earlier
elements are inserted last (see `sortDescByWhen`), so an element never moves
past an equal key: this is exactly a stable descending sort, the semantics
of Python `sorted(key=..., reverse=True)`. -/
def insertDesc (key : RawResult → String) (x : RawResult) : List RawResult → List RawResult
  | [] => [x]
  | y :: ys => if key x < key y then y :: insertDesc key x ys else x :: y :: ys

/-- Stable descending sort by key, the semantics of
`sorted(all_results, key=lambda x: x.get("version", {}).get("when", ""), reverse=True)`
(`confluence_client.py`, lines 156-160). -/
def sortDescByWhen (key : RawResult → String) : List RawResult → List RawResult
  | [] => []
  | x :: xs => insertDesc key x (sortDescByWhen key xs)

/-- `get_recent_pages` (`confluence_client.py`, lines 126-166) as a function
of the list the remote content endpoint returned: sort client-side by
`version.when` descending (stably) and keep the first `limit` entries. -/
def get_recent_pages (remote : List RawResult) (limit : Nat) : List RawResult :=
  (sortDescByWhen (fun r => r.versionWhen) remote).take limit

/-- A Python `str.splitlines` boundary character. -/
def isLineBreak (c : Char) : Bool :=
  c = '\n' || c = '\r' || c = '\x0b' || c = '\x0c' || c = '\x1c' || c = '\x1d' ||
    c = '\x1e' || c = '\x85' || c = '\u2028' || c = '\u2029'

/-- A character stripped by Python `str.strip()` (`str.isspace`). -/
def isPySpace (c : Char) : Bool :=
  c = ' ' || c = '\t' || c = '\n' || c = '\r' || c = '\x0b' || c = '\x0c' ||
    c = '\x1c' || c = '\x1d' || c = '\x1e' || c = '\x1f' || c = '\x85' ||
    c = '\xa0' || c = '\u1680' || (0x2000 ≤ c.toNat && c.toNat ≤ 0x200a) ||
    c = '\u2028' || c = '\u2029' || c = '\u202f' || c = '\u205f' || c = '\u3000'

/-- Python `text.splitlines()`: split at line-boundary characters, treating
a carriage return followed by a newline as one boundary, with no trailing
empty line.  `acc` holds the current line reversed. -/
def splitlinesAux : List Char → List Char → List (List Char)
  | acc, [] => if acc.isEmpty then [] else [acc.reverse]
  | acc, '\r' :: '\n' :: rest => acc.reverse :: splitlinesAux [] rest
  | acc, c :: rest =>
    if isLineBreak c then acc.reverse :: splitlinesAux [] rest
    else splitlinesAux (c :: acc) rest

/-- Drop trailing characters satisfying `p`. -/
def dropTrail (p : Char → Bool) : List Char → List Char
  | [] => []
  | c :: cs =>
    match dropTrail p cs with
    | [] => if p c then [] else [c]
    | r => c :: r

/-- Python `line.strip()`: drop leading and trailing whitespace. -/
def pyStrip (l : List Char) : List Char :=
  dropTrail isPySpace (l.dropWhile isPySpace)

/-- Python `line.split("  ")`: split at non-overlapping occurrences of two
consecutive spaces, scanned left to right.  `acc` holds the current piece
reversed; the result always has at least one piece. -/
def splitSSAux : List Char → List Char → List (List Char)
  | acc, [] => [acc.reverse]
  | acc, [c] => [(c :: acc).reverse]
  | acc, c1 :: c2 :: rest =>
    if c1 = ' ' && c2 = ' ' then acc.reverse :: splitSSAux [] rest
    else splitSSAux (c1 :: acc) (c2 :: rest)

/-- Python `" ".join(...)` on character lists. -/
def joinSp : List (List Char) → List Char
  | [] => []
  | [c] => c
  | c :: cs => c ++ (' ' :: joinSp cs)

/-- The whitespace clean-up of `extract_text_from_storage`
(`confluence_client.py`, lines 119-122): strip each line, split each line at
double spaces, strip the pieces, and join the nonempty pieces with single
spaces. -/
def cleanup (t : List Char) : List Char :=
  let lines := (splitlinesAux [] t).map pyStrip
  let chunks := (lines.flatMap (fun ln => (splitSSAux [] ln).map pyStrip)).filter
    (fun ch => !ch.isEmpty)
  joinSp chunks

/-- The markup tree handed to the extraction: BeautifulSoup is the external
parser, so the storage document is embedded already parsed, as a forest of
text nodes and named elements. -/
inductive HNode where
  | text : List Char → HNode
  | elem : String → List HNode → HNode

/-- `soup.get_text()`: the concatenation of all text nodes in reading
order. -/
def forestText : List HNode → List Char
  | [] => []
  | HNode.text s :: ns => s ++ forestText ns
  | HNode.elem _ cs :: ns => forestText cs ++ forestText ns

/-- The removal pass `for script in soup(["script", "style"]): script.decompose()`:
drop every script and style element together with its subtree. -/
def scrubForest : List HNode → List HNode
  | [] => []
  | HNode.text s :: ns => HNode.text s :: scrubForest ns
  | HNode.elem name cs :: ns =>
    if name = "script" ∨ name = "style" then scrubForest ns
    else HNode.elem name (scrubForest cs) :: scrubForest ns

/-- `extract_text_from_storage` (`confluence_client.py`, lines 96-124) on a
parsed storage document: remove script and style nodes, take the text, and
clean the whitespace.  (The guard returning `""` for empty input is
subsumed: the clean-up of no text is no text.) -/
def extract_text_from_storage (doc : List HNode) : List Char :=
  cleanup (forestText (scrubForest doc))

/-- Fixture: a raw result with storage body, id "1". -/
def ra : RawResult :=
  ⟨"1", "Auth guide", "/wiki/a", "DEV", true, "hello", "2024-01-02", "page"⟩

/-- Fixture: a raw result with storage body, id "2". -/
def rb : RawResult :=
  ⟨"2", "Setup", "/wiki/b", "DEV", true, "world", "2024-01-01", "page"⟩

/-- Fixture: a raw result with a falsy id. -/
def rNoId : RawResult :=
  ⟨"", "Ghost", "/wiki/g", "DEV", true, "boo", "2024-01-03", "page"⟩

/-- Fixture client whose search returns a duplicated result. -/
def cDup : Client :=
  ⟨fun _ _ => [ra, rb, ra], fun _ => [], fun _ => none, fun s => s⟩

/-- Fixture client whose search mixes a falsy-id result into duplicates. -/
def cMix : Client :=
  ⟨fun _ _ => [ra, rNoId, rb, ra], fun _ => [], fun _ => none, fun s => s⟩

/-- Fixture client whose search returns one result. -/
def cOne : Client :=
  ⟨fun _ _ => [ra], fun _ => [], fun _ => none, fun s => s⟩

/-- Fixture client that finds nothing at all. -/
def cEmpty : Client :=
  ⟨fun _ _ => [], fun _ => [], fun _ => none, fun s => s⟩

/-- Fixture tokenizer that counts nothing. -/
def tkZero : String → Nat := fun _ => 0

/-- Fixture generator that always raises. -/
def genBoom : String → String → Except String String := fun _ _ => Except.error "boom"

/-- Fixture enriched document with empty metadata and one content
character; its rendered block has 56 characters. -/
def dSmall : Enriched := ⟨"1", "", "", "", "x", "", ""⟩



/-- C5 is false as stated: `keywords[:3]` is taken with multiplicity, not
the first 3 distinct keywords.  For the question "best best best practice"
the code issues three searches for "best" and none for "practice", whereas
the claimed behaviour (one call per distinct keyword, `strategyBCallsClaimed`)
would issue one search for "best" and one for "practice". -/
theorem c5_counterexample :
    (search_relevant_content cEmpty "best best best practice" 10).2 =
      [Call.search "best best best practice" 10, Call.search "best" 5,
        Call.search "best" 5, Call.search "best" 5, Call.recent 10] ∧
    strategyBCallsClaimed "best best best practice" 10 =
      [Call.search "best" 5, Call.search "practice" 5] ∧
    (search_relevant_content cEmpty "best best best practice" 10).2 ≠
      Call.search "best best best practice" 10 ::
        (strategyBCallsClaimed "best best best practice" 10 ++ [Call.recent 10]) :=
  ⟨by decide, by decide, by decide⟩

/-- C5 (amended): strategy B issues one search call with limit
`max_results / 2` (integer division) for each of the first 3 keywords taken
in order of appearance WITH multiplicity, where keywords are the maximal
alphanumeric-or-underscore runs of length at least 4 of the case-folded
question; these calls directly follow the strategy A call at the head of the
call trace. -/
theorem c5_strategyB_amended (c : Client) (q : String) (mr : Nat) :
    ∃ rest, (search_relevant_content c q mr).2 =
      Call.search q mr :: (strategyBCalls q mr ++ rest) :=
  ⟨_, rfl⟩


/-- C7: the trace of `search_relevant_content` contains exactly one
recent-pages call, with limit `max_results`, when strategies A and B together
return zero results, and none otherwise. -/
theorem c7_fallback (c : Client) (q : String) (mr : Nat) :
    ((search_relevant_content c q mr).2).filter isRecentCall =
      if (combinedAB c q mr).isEmpty then [Call.recent mr] else [] := by
  have hB : (strategyBCalls q mr).filter isRecentCall = [] := by
    refine List.filter_eq_nil_iff.mpr ?_
    intro a ha
    simp only [strategyBCalls, List.mem_map] at ha
    obtain ⟨k, -, rfl⟩ := ha
    simp [isRecentCall]
  have hF : ∀ l : List RawResult, (fetchLog l).filter isRecentCall = [] := by
    intro l
    refine List.filter_eq_nil_iff.mpr ?_
    intro a ha
    simp only [fetchLog, List.mem_flatMap] at ha
    obtain ⟨r, -, hr⟩ := ha
    split at hr
    · simp at hr
      subst hr
      simp [isRecentCall]
    · simp at hr
  have hs : isRecentCall (Call.search q mr) = false := rfl
  have hr : isRecentCall (Call.recent mr) = true := rfl
  simp only [search_relevant_content, List.filter_cons, List.filter_append, hs,
    Bool.false_eq_true, if_false, hB, hF, List.nil_append, List.append_nil]
  by_cases h : combinedAB c q mr = []
  · simp [h, List.filter_cons, hr]
  · simp [h]

theorem ctxGo_sum (tk : String → Nat) (B : Nat) :
    ∀ (l : List Enriched) (cur : Nat), cur ≤ B →
      cur + ((contextPartsGo tk B cur l).map tk).sum ≤ B := by
  intro l
  induction l with
  | nil => intro cur h; simpa [contextPartsGo] using h
  | cons d ds ih =>
    intro cur h
    simp only [contextPartsGo]
    split
    · simpa using h
    · rename_i hle
      have h2 : cur + tk (renderDoc d) ≤ B := by omega
      have h3 := ih (cur + tk (renderDoc d)) h2
      simp only [List.map_cons, List.sum_cons]
      omega


/-- C1 (amended): the loop of `create_context_from_content` bounds the SUM of
the per-block token counts by `max_tokens`.  The returned string is these
blocks joined with single newlines; the token count of that joined string
under the same tokenizer is not what the loop measures and may exceed the
budget, because the join separators are never counted (see the
counterexample). -/
theorem c1_budget_amended (tk : String → Nat) (l : List Enriched) (B : Nat) :
    create_context_from_content tk l B =
      String.intercalate "\n" (contextParts tk l B) ∧
    ((contextParts tk l B).map tk).sum ≤ B :=
  ⟨rfl, by simpa [contextParts] using ctxGo_sum tk B l 0 (Nat.zero_le B)⟩


/-- C1 is false as stated: with the very token counter used inside the
function (here byte length, a legitimate instance of the abstract
byte-pair-encoding tokenizer parameter), two 56-token blocks fit a budget of
112 and are both appended, but the function joins them with an uncounted
newline, so the returned string has 113 tokens, exceeding the budget. -/
theorem c1_counterexample :
    ¬ String.length (create_context_from_content String.length [dSmall, dSmall] 112) ≤ 112 := by
  decide

theorem ctxGo_take (tk : String → Nat) (B : Nat) :
    ∀ (l : List Enriched) (cur : Nat), ∃ n, n ≤ l.length ∧
      contextPartsGo tk B cur l = (l.take n).map renderDoc ∧
      (n = l.length ∨ B < cur + (((l.take (n + 1)).map (fun d => tk (renderDoc d))).sum)) := by
  intro l
  induction l with
  | nil => intro cur; exact ⟨0, by simp [contextPartsGo]⟩
  | cons d ds ih =>
    intro cur
    simp only [contextPartsGo]
    split
    · rename_i hlt
      refine ⟨0, by simp, rfl, Or.inr ?_⟩
      simpa using hlt
    · rename_i hle
      obtain ⟨n, hn, heq, hb⟩ := ih (cur + tk (renderDoc d))
      refine ⟨n + 1, by simpa using hn, ?_, ?_⟩
      · simp [List.take_succ_cons, heq]
      · rcases hb with h | h
        · exact Or.inl (by simp [h])
        · refine Or.inr ?_
          simp only [List.take_succ_cons, List.map_cons, List.sum_cons]
          omega


/-- C6: `create_context_from_content` keeps exactly a prefix of the rendered
blocks: there is an `n` with the accumulated parts equal to the blocks of the
first `n` documents (no partial documents), the output equal to their
newline-join, and either all documents included or the cumulative token count
through document `n` (the first one dropped) exceeding the budget — so no
block for a later document ever appears. -/
theorem c6_truncation (tk : String → Nat) (l : List Enriched) (B : Nat) :
    ∃ n, n ≤ l.length ∧
      contextParts tk l B = (l.take n).map renderDoc ∧
      create_context_from_content tk l B =
        String.intercalate "\n" ((l.take n).map renderDoc) ∧
      (n = l.length ∨ B < (((l.take (n + 1)).map (fun d => tk (renderDoc d))).sum)) := by
  obtain ⟨n, hn, heq, hb⟩ := ctxGo_take tk B l 0
  exact ⟨n, hn, heq, by simp [create_context_from_content, contextParts, heq],
    by simpa using hb⟩


/-- C3 (amended): the confidence of `answer_question` is "low" whenever zero
documents are retrieved, "high" whenever at least one document is retrieved
and the generation call returns normally, and "low" when the generation call
raises (the caught-exception path); it never equals "medium" and does not
depend on the generated answer text. -/
theorem c3_confidence_amended (c : Client) (tk : String → Nat)
    (gen : String → String → Except String String) (q : String) (m : Nat) :
    (answer_question c tk gen q m).confidence =
      (if (search_relevant_content c q 10).1.isEmpty then "low"
       else
         match gen systemPrompt
             (userPrompt (create_context_from_content tk (search_relevant_content c q 10).1 m) q) with
         | Except.ok _ => "high"
         | Except.error _ => "low") ∧
    (answer_question c tk gen q m).confidence ≠ "medium" := by
  have hmain : (answer_question c tk gen q m).confidence =
      (if (search_relevant_content c q 10).1.isEmpty then "low"
       else
         match gen systemPrompt
             (userPrompt (create_context_from_content tk (search_relevant_content c q 10).1 m) q) with
         | Except.ok _ => "high"
         | Except.error _ => "low") := by
    rcases hrel : (search_relevant_content c q 10).1 with _ | ⟨d, ds⟩
    · simp only [answer_question, hrel, List.isEmpty_nil, if_true]
      by_cases h2 : (c.getRecentPages 5).isEmpty = true
      · simp [h2]
      · simp [h2]
    · simp only [answer_question, hrel, List.isEmpty_cons, Bool.false_eq_true, if_false]
      cases hg : gen systemPrompt
          (userPrompt (create_context_from_content tk (d :: ds) m) q) with
      | ok a => simp [hg]
      | error e => simp [hg]
  refine ⟨hmain, ?_⟩
  rw [hmain]
  split
  · decide
  · split <;> decide


/-- C3 is false as stated: with one retrieved document but a generation call
that raises, the retrieved-document count is positive yet the confidence is
"low", not "high" — the exception handler overrides the count-based rule. -/
theorem c3_counterexample :
    0 < (search_relevant_content cOne "ab" 10).1.length ∧
    (answer_question cOne tkZero genBoom "ab" 100).confidence = "low" ∧
    (answer_question cOne tkZero genBoom "ab" 100).confidence ≠ "high" := by
  decide


/-- C4: when the generation call raises with message `e` (and documents were
retrieved, so generation is reached), `answer_question` returns the
well-formed fallback record: the answer text embeds the error message,
sources is empty, and confidence is "low".  The embedded `answer_question`
is a total function, so no exception propagates on any path. -/
theorem c4_error_result (c : Client) (tk : String → Nat)
    (gen : String → String → Except String String) (q : String) (m : Nat) (e : String)
    (hrel : (search_relevant_content c q 10).1.isEmpty = false)
    (hgen : gen systemPrompt
        (userPrompt (create_context_from_content tk (search_relevant_content c q 10).1 m) q) =
      Except.error e) :
    answer_question c tk gen q m = ⟨errorAnswer e, [], "low"⟩ := by
  simp only [answer_question, hrel, Bool.false_eq_true, if_false, hgen]


/-- Witness for C4 at a concrete client, tokenizer and failing generator. -/
theorem c4_error_result_witness :
    (search_relevant_content cOne "ab" 10).1.isEmpty = false ∧
    answer_question cOne tkZero genBoom "ab" 100 = ⟨errorAnswer "boom", [], "low"⟩ :=
  ⟨by decide, c4_error_result cOne tkZero genBoom "ab" 100 "boom" (by decide) rfl⟩

theorem dedup_map_id : ∀ (l : List RawResult) (seen : List String),
    (dedupAux seen l).map (fun r => r.id) = firstIdsAux seen (l.map (fun r => r.id)) := by
  intro l
  induction l with
  | nil => intro seen; rfl
  | cons r rs ih =>
    intro seen
    by_cases h : r.id ≠ "" ∧ r.id ∉ seen
    · simp [dedupAux, firstIdsAux, h, ih]
    · simp [dedupAux, firstIdsAux, h, ih]

theorem mem_firstIds : ∀ (l seen : List String) (i : String),
    i ∈ firstIdsAux seen l → i ∉ seen ∧ i ≠ "" := by
  intro l
  induction l with
  | nil => intro seen i hi; simp [firstIdsAux] at hi
  | cons j js ih =>
    intro seen i hi
    simp only [firstIdsAux] at hi
    split at hi
    · rename_i hc
      rcases List.mem_cons.mp hi with rfl | hi2
      · exact ⟨hc.2, hc.1⟩
      · have h2 := ih _ _ hi2
        exact ⟨fun hmem => h2.1 (List.mem_cons_of_mem _ hmem), h2.2⟩
    · exact ih _ _ hi

theorem firstIds_nodup : ∀ (l seen : List String), (firstIdsAux seen l).Nodup := by
  intro l
  induction l with
  | nil => intro seen; simp [firstIdsAux]
  | cons j js ih =>
    intro seen
    simp only [firstIdsAux]
    split
    · refine List.nodup_cons.mpr ⟨?_, ih _⟩
      intro hmem
      exact (mem_firstIds js (j :: seen) j hmem).1 (List.mem_cons_self j seen)
    · exact ih _

theorem filterMap_map_sub (f : RawResult → Option Enriched)
    (H : ∀ a b, f a = some b → b.id = a.id) :
    ∀ l : List RawResult,
      List.Sublist ((l.filterMap f).map (fun e => e.id)) (l.map (fun r => r.id)) := by
  intro l
  induction l with
  | nil => simp
  | cons a l ih =>
    cases hfa : f a with
    | none =>
      simp only [List.filterMap_cons, hfa, List.map_cons]
      exact ih.cons _
    | some b =>
      simp only [List.filterMap_cons, hfa, List.map_cons]
      rw [H a b hfa]
      exact ih.cons₂ _

theorem dedup_id_ne : ∀ (l : List RawResult) (seen : List String) (r : RawResult),
    r ∈ dedupAux seen l → r.id ≠ "" := by
  intro l
  induction l with
  | nil => intro seen r hr; simp [dedupAux] at hr
  | cons x xs ih =>
    intro seen r hr
    simp only [dedupAux] at hr
    split at hr
    · rename_i hc
      rcases List.mem_cons.mp hr with rfl | hr2
      · exact hc.1
      · exact ih _ r hr2
    · exact ih _ r hr

theorem resolveBody_id (c : Client)
    (hclient : ∀ pid r, c.getPageContent pid = some r → r.id = pid) (r : RawResult) :
    (resolveBody c r).id = r.id := by
  unfold resolveBody
  split
  · rfl
  · split
    · rfl
    · cases hp : c.getPageContent r.id with
      | some fc => exact hclient _ _ hp
      | none => rfl

theorem enrichOne_id (c : Client)
    (hclient : ∀ pid r, c.getPageContent pid = some r → r.id = pid)
    (r : RawResult) (e : Enriched) (he : enrichOne c r = some e) : e.id = r.id := by
  simp only [enrichOne] at he
  split at he
  · exact absurd he (by simp)
  · cases he
    exact resolveBody_id c hclient r

theorem enrichOne_content (c : Client) (r : RawResult) (e : Enriched)
    (he : enrichOne c r = some e) : e.content ≠ "" := by
  simp only [enrichOne] at he
  split at he
  · exact absurd he (by simp)
  · rename_i htext
    cases he
    exact htext


/-- C2: the ids of the documents returned by `search_relevant_content` are
pairwise distinct and form a sublist of the first-occurrence deduplication of
the id sequence of the combined strategy results, so each identifier occurs
at most once, at the position fixed by its first occurrence, with the
relative order of distinct identifiers preserved.  The hypothesis states
that a full-body fetch returns a page carrying the requested id. -/
theorem c2_dedup (c : Client) (q : String) (mr : Nat)
    (hclient : ∀ pid r, c.getPageContent pid = some r → r.id = pid) :
    List.Sublist ((search_relevant_content c q mr).1.map (fun e => e.id))
      (firstIdsAux [] ((allResults c q mr).map (fun r => r.id))) ∧
    ((search_relevant_content c q mr).1.map (fun e => e.id)).Nodup := by
  have hid : ∀ a b, enrichOne c a = some b → b.id = a.id :=
    fun a b h => enrichOne_id c hclient a b h
  have s1 := filterMap_map_sub (enrichOne c) hid ((dedupAux [] (allResults c q mr)).take mr)
  have s2 : List.Sublist (((dedupAux [] (allResults c q mr)).take mr).map (fun r => r.id))
      ((dedupAux [] (allResults c q mr)).map (fun r => r.id)) := by
    rw [List.map_take]
    exact List.take_sublist _ _
  have s3 := s1.trans s2
  rw [dedup_map_id] at s3
  exact ⟨s3, (firstIds_nodup _ _).sublist s3⟩


/-- Witness for C2 at a concrete client whose search returns a duplicate. -/
theorem c2_dedup_witness :
    List.Sublist ((search_relevant_content cDup "ab" 10).1.map (fun e => e.id))
      (firstIdsAux [] ((allResults cDup "ab" 10).map (fun r => r.id))) ∧
    ((search_relevant_content cDup "ab" 10).1.map (fun e => e.id)).Nodup :=
  c2_dedup cDup "ab" 10 (fun _ _ h => nomatch h)


/-- C10: every document returned by `search_relevant_content` has a truthy
(non-empty) id and a non-empty content, and the output length never exceeds
`max_results`; raw results with falsy ids are dropped by the deduplication
pass and never reappear.  The hypothesis states that a full-body fetch
returns a page carrying the requested id. -/
theorem c10_invariants (c : Client) (q : String) (mr : Nat)
    (hclient : ∀ pid r, c.getPageContent pid = some r → r.id = pid) :
    (search_relevant_content c q mr).1.all (fun e => e.id != "" && e.content != "") = true ∧
    (search_relevant_content c q mr).1.length ≤ mr := by
  constructor
  · refine List.all_eq_true.mpr ?_
    intro e he
    obtain ⟨r, hr, hre⟩ := List.mem_filterMap.mp he
    have h1 : e.id = r.id := enrichOne_id c hclient r e hre
    have h2 : r.id ≠ "" := dedup_id_ne _ _ r (List.take_subset _ _ hr)
    have h3 : e.content ≠ "" := enrichOne_content c r e hre
    simp only [Bool.and_eq_true, bne_iff_ne]
    exact ⟨h1 ▸ h2, h3⟩
  · calc (search_relevant_content c q mr).1.length
        ≤ ((dedupAux [] (allResults c q mr)).take mr).length := List.length_filterMap_le _ _
    _ ≤ mr := List.length_take_le _ _


/-- Witness for C10 at a concrete client mixing in a falsy-id result. -/
theorem c10_invariants_witness :
    (search_relevant_content cMix "ab" 10).1.all (fun e => e.id != "" && e.content != "") = true ∧
    (search_relevant_content cMix "ab" 10).1.length ≤ 10 :=
  c10_invariants cMix "ab" 10 (fun _ _ h => nomatch h)

theorem mem_insertDesc (key : RawResult → String) (x z : RawResult) :
    ∀ l, z ∈ insertDesc key x l → z = x ∨ z ∈ l := by
  intro l
  induction l with
  | nil => intro h; simp only [insertDesc] at h; simp at h; exact Or.inl h
  | cons y ys ih =>
    intro h
    simp only [insertDesc] at h
    split at h
    · rcases List.mem_cons.mp h with rfl | h2
      · exact Or.inr (List.mem_cons_self _ _)
      · rcases ih h2 with h3 | h3
        · exact Or.inl h3
        · exact Or.inr (List.mem_cons_of_mem _ h3)
    · rcases List.mem_cons.mp h with rfl | h2
      · exact Or.inl rfl
      · exact Or.inr h2

theorem pairwise_insertDesc (key : RawResult → String) (x : RawResult) :
    ∀ l, l.Pairwise (fun a b => key b ≤ key a) →
      (insertDesc key x l).Pairwise (fun a b => key b ≤ key a) := by
  intro l
  induction l with
  | nil => intro h; simp [insertDesc]
  | cons y ys ih =>
    intro hp
    rcases List.pairwise_cons.mp hp with ⟨hy, hys⟩
    simp only [insertDesc]
    split
    · rename_i hlt
      refine List.pairwise_cons.mpr ⟨?_, ih hys⟩
      intro z hz
      rcases mem_insertDesc key x z ys hz with rfl | h2
      · exact le_of_lt hlt
      · exact hy z h2
    · rename_i hnlt
      have hxy : key y ≤ key x := not_lt.mp hnlt
      refine List.pairwise_cons.mpr ⟨?_, hp⟩
      intro z hz
      rcases List.mem_cons.mp hz with rfl | h2
      · exact hxy
      · exact le_trans (hy z h2) hxy

theorem pairwise_sortDesc (key : RawResult → String) :
    ∀ l, (sortDescByWhen key l).Pairwise (fun a b => key b ≤ key a) := by
  intro l
  induction l with
  | nil => simp [sortDescByWhen]
  | cons x xs ih => exact pairwise_insertDesc key x _ ih

theorem filter_insertDesc (key : RawResult → String) (k : String) (x : RawResult) :
    ∀ l, (insertDesc key x l).filter (fun r => key r == k) =
      if key x == k then x :: l.filter (fun r => key r == k)
      else l.filter (fun r => key r == k) := by
  intro l
  induction l with
  | nil => by_cases hk : key x == k <;> simp [insertDesc, List.filter, hk]
  | cons y ys ih =>
    simp only [insertDesc]
    split
    · rename_i hlt
      by_cases hk : (key x == k) = true
      · have hxk : key x = k := by simpa using hk
        have hyk : (key y == k) = false := by
          refine beq_eq_false_iff_ne.mpr ?_
          intro hyk
          rw [hxk, hyk] at hlt
          exact lt_irrefl k hlt
        simp [List.filter_cons, hyk, ih, hk]
      · have hk2 : (key x == k) = false := by simpa using hk
        simp [List.filter_cons, ih, hk2]
    · by_cases hk : (key x == k) = true <;>
        simp [List.filter_cons, hk]

theorem filter_sortDesc (key : RawResult → String) (k : String) :
    ∀ l, (sortDescByWhen key l).filter (fun r => key r == k) =
      l.filter (fun r => key r == k) := by
  intro l
  induction l with
  | nil => rfl
  | cons x xs ih =>
    simp only [sortDescByWhen]
    rw [filter_insertDesc key k x (sortDescByWhen key xs), ih]
    by_cases hk : (key x == k) = true <;> simp [List.filter_cons, hk]

theorem filter_take_pre (p : RawResult → Bool) :
    ∀ (l : List RawResult) (n : Nat), ∃ t, (l.take n).filter p ++ t = l.filter p := by
  intro l
  induction l with
  | nil => intro n; exact ⟨[], by simp⟩
  | cons x xs ih =>
    intro n
    cases n with
    | zero => exact ⟨(x :: xs).filter p, by simp⟩
    | succ n =>
      obtain ⟨t, ht⟩ := ih n
      by_cases hx : p x = true
      · exact ⟨t, by simp [List.filter_cons, hx, ht]⟩
      · exact ⟨t, by simp [List.filter_cons, hx, ht]⟩


/-- C8: `get_recent_pages` returns at most `limit` pages, sorted by the
last-modified timestamp in descending order, and for every timestamp value
the pages carrying it appear as an initial segment of their order in the
remote response (stable sort: ties keep remote order). -/
theorem c8_recent_sorted (remote : List RawResult) (limit : Nat) :
    (get_recent_pages remote limit).length ≤ limit ∧
    (get_recent_pages remote limit).Pairwise (fun a b => b.versionWhen ≤ a.versionWhen) ∧
    ∀ k : String,
      ∃ t, (get_recent_pages remote limit).filter (fun r => r.versionWhen == k) ++ t =
        remote.filter (fun r => r.versionWhen == k) := by
  refine ⟨List.length_take_le _ _, ?_, ?_⟩
  · exact (pairwise_sortDesc _ remote).sublist (List.take_sublist _ _)
  · intro k
    obtain ⟨t, ht⟩ :=
      filter_take_pre (fun r => r.versionWhen == k)
        (sortDescByWhen (fun r => r.versionWhen) remote) limit
    rw [filter_sortDesc] at ht
    exact ⟨t, ht⟩

set_option maxHeartbeats 1000000 in
theorem splitlinesAux_cons (acc : List Char) (c : Char) (rest : List Char)
    (hx : ∀ (r : List Char), c = '\r' → rest = '\n' :: r → False) :
    splitlinesAux acc (c :: rest) =
      if isLineBreak c then acc.reverse :: splitlinesAux [] rest
      else splitlinesAux (c :: acc) rest := by
  rw [splitlinesAux.eq_def]
  split
  · rename_i heq
    exact absurd heq (by simp)
  · rename_i rest2 heq
    obtain ⟨hc, hrest⟩ := List.cons.inj heq
    exact (hx rest2 hc hrest).elim
  · rename_i c2 rest2 hx2 heq
    obtain ⟨hc, hrest⟩ := List.cons.inj heq
    subst hc
    subst hrest
    rfl

theorem splitlines_no_break (acc t : List Char) :
    (∀ ch ∈ acc, isLineBreak ch = false) →
    ∀ ln ∈ splitlinesAux acc t, ∀ ch ∈ ln, isLineBreak ch = false := by
  induction acc, t using splitlinesAux.induct with
  | case1 acc hacc =>
    intro h ln hln ch hch
    simp [splitlinesAux, hacc] at hln
  | case2 acc hacc =>
    intro h ln hln ch hch
    simp only [splitlinesAux, if_neg hacc] at hln
    simp at hln
    subst hln
    exact h ch (by simpa using hch)
  | case3 acc rest ih =>
    intro h ln hln ch hch
    simp only [splitlinesAux] at hln
    rcases List.mem_cons.mp hln with rfl | h2
    · exact h ch (by simpa using hch)
    · exact ih (by simp) ln h2 ch hch
  | case4 acc c rest hx hbreak ih =>
    intro h ln hln ch hch
    rw [splitlinesAux_cons acc c rest (fun r hc hr => hx r hc hr), if_pos hbreak] at hln
    rcases List.mem_cons.mp hln with rfl | h2
    · exact h ch (by simpa using hch)
    · exact ih (by simp) ln h2 ch hch
  | case5 acc c rest hx hbreak ih =>
    intro h ln hln ch hch
    rw [splitlinesAux_cons acc c rest (fun r hc hr => hx r hc hr), if_neg hbreak] at hln
    refine ih ?_ ln hln ch hch
    intro a ha
    rcases List.mem_cons.mp ha with rfl | ha2
    · exact Bool.eq_false_iff.mpr (fun habs => hbreak habs)
    · exact h a ha2

theorem mem_dropTrail (p : Char → Bool) :
    ∀ (l : List Char) (ch : Char), ch ∈ dropTrail p l → ch ∈ l := by
  intro l
  induction l with
  | nil => intro ch h; simp [dropTrail] at h
  | cons c cs ih =>
    intro ch h
    simp only [dropTrail] at h
    cases hd : dropTrail p cs with
    | nil =>
      rw [hd] at h
      by_cases hpc : p c = true
      · rw [if_pos hpc] at h
        simp at h
      · rw [if_neg hpc] at h
        simp at h
        subst h
        exact List.mem_cons_self _ _
    | cons y ys =>
      rw [hd] at h
      rcases List.mem_cons.mp h with rfl | h2
      · exact List.mem_cons_self _ _
      · exact List.mem_cons_of_mem _ (ih ch (hd ▸ h2))

theorem mem_pyStrip (l : List Char) (ch : Char) (h : ch ∈ pyStrip l) : ch ∈ l :=
  (List.dropWhile_sublist _).subset (mem_dropTrail _ _ _ h)

theorem splitSS_chars (acc t : List Char) :
    ∀ piece ∈ splitSSAux acc t, ∀ ch ∈ piece, ch ∈ acc ∨ ch ∈ t := by
  induction acc, t using splitSSAux.induct with
  | case1 acc =>
    intro piece hp ch hch
    simp only [splitSSAux] at hp
    simp at hp
    subst hp
    exact Or.inl (by simpa using hch)
  | case2 acc c =>
    intro piece hp ch hch
    simp only [splitSSAux] at hp
    simp at hp
    subst hp
    have h2 : ch ∈ acc ∨ ch = c := by simpa using hch
    rcases h2 with h3 | rfl
    · exact Or.inl h3
    · exact Or.inr (List.mem_cons_self _ _)
  | case3 acc c1 c2 rest hcond ih =>
    intro piece hp ch hch
    simp only [splitSSAux, if_pos hcond] at hp
    rcases List.mem_cons.mp hp with rfl | hp2
    · exact Or.inl (by simpa using hch)
    · rcases ih piece hp2 ch hch with h | h
      · simp at h
      · exact Or.inr (List.mem_cons_of_mem _ (List.mem_cons_of_mem _ h))
  | case4 acc c1 c2 rest hcond ih =>
    intro piece hp ch hch
    simp only [splitSSAux, if_neg hcond] at hp
    rcases ih piece hp ch hch with h | h
    · rcases List.mem_cons.mp h with rfl | h2
      · exact Or.inr (List.mem_cons_self _ _)
      · exact Or.inl h2
    · exact Or.inr (List.mem_cons_of_mem _ h)

theorem dropWhile_head_not (p : Char → Bool) :
    ∀ (l : List Char) (c : Char) (r : List Char), l.dropWhile p = c :: r → p c = false := by
  intro l
  induction l with
  | nil => intro c r h; simp at h
  | cons a as ih =>
    intro c r h
    rw [List.dropWhile_cons] at h
    split at h
    · exact ih c r h
    · rename_i hpa
      obtain ⟨h1, h2⟩ := List.cons.inj h
      subst h1
      exact Bool.eq_false_iff.mpr hpa

theorem dropTrail_head (p : Char → Bool) :
    ∀ (l : List Char) (x : Char) (xs : List Char),
      dropTrail p l = x :: xs → ∃ ys, l = x :: ys := by
  intro l
  induction l with
  | nil => intro x xs h; simp [dropTrail] at h
  | cons c cs ih =>
    intro x xs h
    simp only [dropTrail] at h
    cases hd : dropTrail p cs with
    | nil =>
      rw [hd] at h
      by_cases hpc : p c = true
      · rw [if_pos hpc] at h
        simp at h
      · rw [if_neg hpc] at h
        obtain ⟨h1, h2⟩ := List.cons.inj h
        exact ⟨cs, by rw [h1]⟩
    | cons y ys =>
      rw [hd] at h
      obtain ⟨h1, h2⟩ := List.cons.inj h
      exact ⟨cs, by rw [h1]⟩

theorem pyStrip_head (l : List Char) (c : Char) (r : List Char)
    (h : pyStrip l = c :: r) : isPySpace c = false := by
  obtain ⟨ys, hys⟩ := dropTrail_head isPySpace _ c r h
  exact dropWhile_head_not isPySpace l c ys hys

theorem dropTrail_last (p : Char → Bool) :
    ∀ (l : List Char) (x : Char), (dropTrail p l).getLast? = some x → p x = false := by
  intro l
  induction l with
  | nil => intro x h; simp [dropTrail] at h
  | cons c cs ih =>
    intro x h
    simp only [dropTrail] at h
    cases hd : dropTrail p cs with
    | nil =>
      rw [hd] at h
      by_cases hpc : p c = true
      · rw [if_pos hpc] at h
        simp at h
      · rw [if_neg hpc] at h
        simp at h
        subst h
        exact Bool.eq_false_iff.mpr hpc
    | cons y ys =>
      rw [hd] at h
      rw [List.getLast?_cons_cons] at h
      exact ih x (hd ▸ h)

theorem chain_dropWhile (R : Char → Char → Prop) (p : Char → Bool) :
    ∀ l : List Char, List.Chain' R l → List.Chain' R (l.dropWhile p) := by
  intro l
  induction l with
  | nil => intro h; exact h
  | cons c cs ih =>
    intro h
    rw [List.dropWhile_cons]
    split
    · exact ih h.tail
    · exact h

theorem chain_dropTrail (R : Char → Char → Prop) (p : Char → Bool) :
    ∀ l : List Char, List.Chain' R l → List.Chain' R (dropTrail p l) := by
  intro l
  induction l with
  | nil => intro h; exact h
  | cons c cs ih =>
    intro h
    simp only [dropTrail]
    cases hd : dropTrail p cs with
    | nil =>
      by_cases hpc : p c = true
      · rw [if_pos hpc]
        exact List.chain'_nil
      · rw [if_neg hpc]
        exact List.chain'_singleton c
    | cons y ys =>
      refine List.chain'_cons'.mpr ⟨?_, hd ▸ ih h.tail⟩
      intro b hb
      simp at hb
      subst hb
      obtain ⟨zs, hzs⟩ := dropTrail_head p cs y ys hd
      have h2 := List.chain'_cons'.mp h
      exact h2.1 y (by rw [hzs]; rfl)

theorem chain_pyStrip (R : Char → Char → Prop) (l : List Char)
    (h : List.Chain' R l) : List.Chain' R (pyStrip l) :=
  chain_dropTrail R isPySpace _ (chain_dropWhile R isPySpace l h)

theorem splitSS_chain (acc t : List Char) :
    List.Chain' (fun a b => a = ' ' → b ≠ ' ') acc.reverse →
    (∀ a as, acc = a :: as → a = ' ' → ∀ r, t ≠ ' ' :: r) →
    ∀ piece ∈ splitSSAux acc t,
      List.Chain' (fun a b => a = ' ' → b ≠ ' ') piece := by
  induction acc, t using splitSSAux.induct with
  | case1 acc =>
    intro h1 h2 piece hp
    simp only [splitSSAux] at hp
    simp at hp
    subst hp
    exact h1
  | case2 acc c =>
    intro h1 h2 piece hp
    simp only [splitSSAux] at hp
    simp at hp
    subst hp
    refine List.chain'_append.mpr ⟨h1, List.chain'_singleton c, ?_⟩
    intro x hx y hy
    simp at hy
    subst hy
    rw [List.getLast?_reverse] at hx
    cases acc with
    | nil => simp at hx
    | cons a as =>
      simp at hx
      subst hx
      intro hasp hcsp
      exact h2 a as rfl hasp [] (by rw [hcsp])
  | case3 acc c1 c2 rest hcond ih =>
    intro h1 h2 piece hp
    simp only [splitSSAux, if_pos hcond] at hp
    rcases List.mem_cons.mp hp with rfl | hp2
    · exact h1
    · refine ih (by simp) ?_ piece hp2
      intro a as ha
      simp at ha
  | case4 acc c1 c2 rest hcond ih =>
    intro h1 h2 piece hp
    simp only [splitSSAux, if_neg hcond] at hp
    refine ih ?_ ?_ piece hp
    · rw [List.reverse_cons]
      refine List.chain'_append.mpr ⟨h1, List.chain'_singleton c1, ?_⟩
      intro x hx y hy
      simp at hy
      subst hy
      rw [List.getLast?_reverse] at hx
      cases acc with
      | nil => simp at hx
      | cons a as =>
        simp at hx
        subst hx
        intro hasp hc1
        exact h2 a as rfl hasp (c2 :: rest) (by rw [hc1])
    · intro a as ha hasp r hr
      obtain ⟨h1a, _⟩ := List.cons.inj ha
      obtain ⟨hc2, _⟩ := List.cons.inj hr
      apply hcond
      rw [← h1a] at hasp
      simp [hasp, hc2]

theorem mem_joinSp (ch : Char) :
    ∀ L : List (List Char), ch ∈ joinSp L → ch = ' ' ∨ ∃ x ∈ L, ch ∈ x := by
  intro L
  induction L with
  | nil => intro h; simp [joinSp] at h
  | cons x L ih =>
    intro h
    cases L with
    | nil => exact Or.inr ⟨x, List.mem_cons_self _ _, h⟩
    | cons y Lt =>
      simp only [joinSp] at h
      rcases List.mem_append.mp h with h1 | h1
      · exact Or.inr ⟨x, List.mem_cons_self _ _, h1⟩
      · rcases List.mem_cons.mp h1 with rfl | h2
        · exact Or.inl rfl
        · rcases ih h2 with h3 | ⟨z, hz, hchz⟩
          · exact Or.inl h3
          · exact Or.inr ⟨z, List.mem_cons_of_mem _ hz, hchz⟩

theorem joinSp_head (x : List Char) (L : List (List Char)) (hx : x ≠ []) :
    (joinSp (x :: L)).head? = x.head? := by
  cases L with
  | nil => rfl
  | cons y Lt =>
    cases x with
    | nil => exact absurd rfl hx
    | cons c cs => simp [joinSp]

theorem joinSp_chain :
    ∀ L : List (List Char),
      (∀ x ∈ L, x ≠ [] ∧ (∀ c r, x = c :: r → c ≠ ' ') ∧
        (∀ c, x.getLast? = some c → c ≠ ' ') ∧
        List.Chain' (fun a b => a = ' ' → b ≠ ' ') x) →
      List.Chain' (fun a b => a = ' ' → b ≠ ' ') (joinSp L) := by
  intro L
  induction L with
  | nil => intro h; simp [joinSp]
  | cons x L ih =>
    intro h
    cases L with
    | nil => simpa [joinSp] using (h x (List.mem_cons_self _ _)).2.2.2
    | cons y Lt =>
      have hx := h x (List.mem_cons_self _ _)
      have hy := h y (List.mem_cons_of_mem _ (List.mem_cons_self _ _))
      have hrest := ih (fun z hz => h z (List.mem_cons_of_mem _ hz))
      show List.Chain' (fun a b => a = ' ' → b ≠ ' ') (x ++ (' ' :: joinSp (y :: Lt)))
      refine List.chain'_append.mpr ⟨hx.2.2.2, ?_, ?_⟩
      · refine List.chain'_cons'.mpr ⟨?_, hrest⟩
        intro b hb
        rw [joinSp_head y Lt hy.1] at hb
        cases y with
        | nil => exact absurd rfl hy.1
        | cons d ds =>
          simp at hb
          subst hb
          intro hsp
          exact hy.2.1 d ds rfl
      · intro a ha b hb
        simp at hb
        subst hb
        intro hasp
        exact absurd hasp (hx.2.2.1 a (by simpa using ha))

theorem cleanup_all_no_break (t : List Char) :
    (cleanup t).all (fun ch => !isLineBreak ch) = true := by
  refine List.all_eq_true.mpr ?_
  intro ch hch
  suffices h : isLineBreak ch = false by simp [h]
  simp only [cleanup] at hch
  rcases mem_joinSp ch _ hch with rfl | ⟨x, hx, hchx⟩
  · decide
  · rw [List.mem_filter] at hx
    obtain ⟨hx1, -⟩ := hx
    rw [List.mem_flatMap] at hx1
    obtain ⟨ln, hln, hxln⟩ := hx1
    rw [List.mem_map] at hxln
    obtain ⟨piece, hpiece, rfl⟩ := hxln
    have h2 : ch ∈ piece := mem_pyStrip _ _ hchx
    rcases splitSS_chars [] ln piece hpiece ch h2 with h3 | h3
    · simp at h3
    · rw [List.mem_map] at hln
      obtain ⟨ln0, hln0, rfl⟩ := hln
      have h4 : ch ∈ ln0 := mem_pyStrip _ _ h3
      exact splitlines_no_break [] t (by simp) ln0 hln0 ch h4

theorem cleanup_chain (t : List Char) :
    List.Chain' (fun a b => a = ' ' → b ≠ ' ') (cleanup t) := by
  simp only [cleanup]
  refine joinSp_chain _ ?_
  intro x hx
  rw [List.mem_filter] at hx
  obtain ⟨hx1, hx2⟩ := hx
  rw [List.mem_flatMap] at hx1
  obtain ⟨ln, hln, hxln⟩ := hx1
  rw [List.mem_map] at hxln
  obtain ⟨piece, hpiece, rfl⟩ := hxln
  have hne : pyStrip piece ≠ [] := by
    intro habs
    rw [habs] at hx2
    simp at hx2
  refine ⟨hne, ?_, ?_, ?_⟩
  · intro c r hcr hceq
    have h5 := pyStrip_head piece c r hcr
    rw [hceq] at h5
    simp [isPySpace] at h5
  · intro c hc hceq
    have h5 := dropTrail_last isPySpace _ c hc
    rw [hceq] at h5
    simp [isPySpace] at h5
  · exact chain_pyStrip _ _
      (splitSS_chain [] ln (by simp) (by intro a as ha; simp at ha) piece hpiece)


/-- C9 (amended): `extract_text_from_storage` is a pure function that
removes script and style nodes (prepending either changes nothing), returns
text with no line-break characters and no two consecutive spaces, and maps
the empty document to the empty string.  Not every whitespace run is
collapsed to a single space: an interior tab survives (see the
counterexample), because the clean-up only strips line ends and splits at
double spaces. -/
theorem c9_extract_amended (doc cs : List HNode) :
    (extract_text_from_storage doc).all (fun ch => !isLineBreak ch) = true ∧
    List.Chain' (fun a b => a = ' ' → b ≠ ' ') (extract_text_from_storage doc) ∧
    extract_text_from_storage (HNode.elem "script" cs :: doc) = extract_text_from_storage doc ∧
    extract_text_from_storage (HNode.elem "style" cs :: doc) = extract_text_from_storage doc ∧
    extract_text_from_storage ([] : List HNode) = [] := by
  refine ⟨cleanup_all_no_break _, cleanup_chain _, ?_, ?_, ?_⟩
  · simp [extract_text_from_storage, scrubForest]
  · simp [extract_text_from_storage, scrubForest]
  · simp [extract_text_from_storage, scrubForest, forestText]
    rfl


/-- C9 is false as stated: for the markup text node "a TAB b" the extracted
text still contains the tab character, so the output is not free of tabs and
the whitespace run is not collapsed into a single space. -/
theorem c9_counterexample :
    extract_text_from_storage [HNode.text ['a', '\t', 'b']] = ['a', '\t', 'b'] ∧
    '\t' ∈ extract_text_from_storage [HNode.text ['a', '\t', 'b']] := by
  have h : extract_text_from_storage [HNode.text ['a', '\t', 'b']] =
      cleanup ['a', '\t', 'b'] := by
    simp [extract_text_from_storage, scrubForest, forestText]
  constructor
  · rw [h]
    decide
  · rw [h]
    decide

end ConfluenceQA
